import Mathlib

/-!
Verification of the islatu XRR reduction core against its specification.

The definitions below are a shallow embedding of the authoritative source
tree (`src/islatu/` inside the repository): `region.py`, `image.py`,
`cropping.py`, `background.py`, `corrections.py`, `data.py`, `scan.py`,
`stitching.py`, `refl_profile.py`, plus the hot-pixel repair
`_average_out_hot` that exists only in the older top-level `islatu/` tree.
Machine floats are modelled as real numbers, numpy arrays as lists or as
dimension-carrying entry functions, and numpy's half-open clamped slicing
is made explicit.
-/

/-! ## Region (`region.py`)

The source constructor stores the four coordinates exactly as given (it
performs no swapping), and `x_length` / `y_length` are `start - end`.
Python integers are signed, so the fields are ℤ. -/

structure Region where
  x_start : ℤ
  x_end : ℤ
  y_start : ℤ
  y_end : ℤ

def Region.x_length (r : Region) : ℤ := r.x_start - r.x_end

def Region.y_length (r : Region) : ℤ := r.y_start - r.y_end

/-- Modelled from the spec: `Region.num_pixels = (x_end − x_start)·(y_end − y_start)`.
The attribute is absent from `src/islatu/region.py`, yet `background.py`
reads `region.num_pixels` and the unit test `test_region_num_pixels`
asserts it equals `(x_end − x_start)·(y_end − y_start)`. -/
def Region.num_pixels (r : Region) : ℤ :=
  (r.x_end - r.x_start) * (r.y_end - r.y_start)

/-- C7: the claim (constructor swaps a reversed start/end pair;
`x_length = x_end − x_start`; `num_pixels = (x_end − x_start)·(y_end − y_start)`)
is what the repository's own unit tests demand, but the code stores the
coordinates unswapped and negates the lengths.  Evaluating the embedded
code at the tests' inputs: `Region(2, 1, 4, 3)` keeps `x_start = 2`
(test_region_instantiation expects 1 after the swap), and
`Region(1056, 1124, 150, 250)` has `x_length = −68` where
test_region_length expects `1124 − 1056 = 68`. -/
theorem region_code_contradicts_tests :
    (Region.mk 2 1 4 3).x_start = 2 ∧
    (Region.mk 2 1 4 3).x_end = 1 ∧
    (Region.mk 1056 1124 150 250).x_length = -68 ∧
    (Region.mk 1056 1124 150 250).y_length = -100 := by
  refine ⟨rfl, rfl, ?_, ?_⟩ <;> decide

/-! ## Arrays and Image (`image.py`, `cropping.py`)

A numpy float array is modelled as a pair of dimensions with a total entry
function; only the entries with `i < rows`, `j < cols` are meaningful.
`a[xs:xe, ys:ye]` is numpy's half-open slice, whose bounds are clamped to
the array's shape. -/

structure RArr where
  rows : ℕ
  cols : ℕ
  entry : ℕ → ℕ → ℝ

/-- `crop_to_region` (`cropping.py`): `array[x_start:x_end, y_start:y_end]`.
Region coordinates are cast with `int(...)` in the callers and are
non-negative pixel indices; numpy clamps the slice bounds to the shape. -/
def crop_to_region (a : RArr) (r : Region) : RArr where
  rows := min r.x_end.toNat a.rows - min r.x_start.toNat a.rows
  cols := min r.y_end.toNat a.cols - min r.y_start.toNat a.cols
  entry := fun i j => a.entry (r.x_start.toNat + i) (r.y_start.toNat + j)

structure Image where
  array : RArr
  array_e : RArr
  array_original : RArr
  bkg : ℝ
  bkg_e : ℝ

/-- `Image.crop`: `self.array = crop_function(self.array, **kwargs)` and the
same for `self.array_e`; nothing else is touched (in particular not
`array_original`). -/
def Image.crop (img : Image) (r : Region) : Image :=
  { img with
    array := crop_to_region img.array r
    array_e := crop_to_region img.array_e r }

/-- Sum of `a[x_start:x_end, y_start:y_end]` with numpy's clamped half-open
slicing, as read by `roi_subtraction` from `array_original`. -/
def sliceSum (a : RArr) (r : Region) : ℝ :=
  ∑ i ∈ Finset.Ico (min r.x_start.toNat a.rows) (min r.x_end.toNat a.rows),
    ∑ j ∈ Finset.Ico (min r.y_start.toNat a.cols) (min r.y_end.toNat a.cols),
      a.entry i j

/-- `BkgSubInfo` (`background.py`); the `bkg_sub_function` / `fit_info`
members only record which strategy ran and are omitted. -/
structure BkgSubInfo where
  bkg : ℝ
  bkg_e : ℝ

/-- `roi_subtraction` (`background.py`): sum `array_original` over every
background region, take `err = sqrt(sum)` (replaced by 1 when it is 0),
divide both by the total number of pixels `Σ region.num_pixels`. -/
noncomputable def roi_subtraction (img : Image) (regions : List Region) : BkgSubInfo :=
  let sum_of_bkg_areas := (regions.map fun r => sliceSum img.array_original r).sum
  let err0 := Real.sqrt sum_of_bkg_areas
  let err_of_bkg_areas := if err0 = 0 then 1 else err0
  let total_num_pixels := (regions.map Region.num_pixels).sum
  { bkg := sum_of_bkg_areas / (total_num_pixels : ℝ)
    bkg_e := err_of_bkg_areas / (total_num_pixels : ℝ) }

/-- `Image.background_subtraction`: run the strategy, store `bkg`/`bkg_e`,
subtract `bkg` from `array` elementwise, and propagate
`array_e ← sqrt(bkg_e² + array_e²)`. -/
noncomputable def Image.background_subtraction (img : Image) (f : Image → BkgSubInfo) : Image :=
  let info := f img
  { array := { img.array with entry := fun i j => img.array.entry i j - info.bkg }
    array_e := { img.array_e with
      entry := fun i j => Real.sqrt (info.bkg_e ^ 2 + img.array_e.entry i j ^ 2) }
    array_original := img.array_original
    bkg := info.bkg
    bkg_e := info.bkg_e }

/-- The clamped slice sum coincides with the plain rectangle sum once the
region lies inside the array. -/
theorem sliceSum_of_inbounds (a : RArr) (r : Region)
    (hx0 : r.x_start ≤ r.x_end) (hx : r.x_end ≤ (a.rows : ℤ))
    (hy0 : r.y_start ≤ r.y_end) (hy : r.y_end ≤ (a.cols : ℤ)) :
    sliceSum a r =
      ∑ i ∈ Finset.Ico r.x_start.toNat r.x_end.toNat,
        ∑ j ∈ Finset.Ico r.y_start.toNat r.y_end.toNat, a.entry i j := by
  unfold sliceSum
  have h1 : min r.x_start.toNat a.rows = r.x_start.toNat := by omega
  have h2 : min r.x_end.toNat a.rows = r.x_end.toNat := by omega
  have h3 : min r.y_start.toNat a.cols = r.y_start.toNat := by omega
  have h4 : min r.y_end.toNat a.cols = r.y_end.toNat := by omega
  rw [h1, h2, h3, h4]

/-- C1: `roi_subtraction` followed by `background_subtraction` computes
`b = S/N`, `σb = √S/N` (`σb = 1/N` when `S = 0`), subtracts `b` from every
pixel of `array` without clipping, propagates
`array_e ← √(array_e² + σb²)` at every pixel, and stores `bkg`/`bkg_e`. -/
theorem roi_background_subtraction_spec (img : Image) (regions : List Region)
    (hwf : ∀ r ∈ regions, r.x_start ≤ r.x_end ∧ r.x_end ≤ (img.array_original.rows : ℤ) ∧
      r.y_start ≤ r.y_end ∧ r.y_end ≤ (img.array_original.cols : ℤ))
    (hnn : ∀ i j, 0 ≤ img.array_original.entry i j)
    (hN : 0 < (regions.map Region.num_pixels).sum) :
    let S := (regions.map fun r =>
      ∑ i ∈ Finset.Ico r.x_start.toNat r.x_end.toNat,
        ∑ j ∈ Finset.Ico r.y_start.toNat r.y_end.toNat,
          img.array_original.entry i j).sum
    let N : ℝ := ((regions.map Region.num_pixels).sum : ℤ)
    let res := img.background_subtraction (fun im => roi_subtraction im regions)
    res.bkg = S / N ∧
    (S = 0 → res.bkg_e = 1 / N) ∧
    (S ≠ 0 → res.bkg_e = Real.sqrt S / N) ∧
    (∀ i j, res.array.entry i j = img.array.entry i j - S / N) ∧
    (∀ i j, res.array_e.entry i j =
      Real.sqrt ((img.array_e.entry i j) ^ 2 + res.bkg_e ^ 2)) ∧
    res.array_original = img.array_original := by
  intro S N res
  have hsum : (regions.map fun r => sliceSum img.array_original r).sum = S := by
    unfold S
    congr 1
    exact List.map_congr_left fun r hr =>
      sliceSum_of_inbounds _ _ (hwf r hr).1 (hwf r hr).2.1 (hwf r hr).2.2.1 (hwf r hr).2.2.2
  have hS0 : 0 ≤ S := by
    unfold S
    apply List.sum_nonneg
    intro x hx
    obtain ⟨r, _, rfl⟩ := List.mem_map.1 hx
    exact Finset.sum_nonneg fun i _ => Finset.sum_nonneg fun j _ => hnn i j
  have hres : res = img.background_subtraction (fun im => roi_subtraction im regions) := rfl
  have hbkg : res.bkg = S / N := by
    simp only [hres, Image.background_subtraction, roi_subtraction, hsum]
  have hbkg_e : res.bkg_e = (if Real.sqrt S = 0 then 1 else Real.sqrt S) / N := by
    simp only [hres, Image.background_subtraction, roi_subtraction, hsum]
  have hsqrt0 : Real.sqrt S = 0 ↔ S = 0 := by
    rw [Real.sqrt_eq_zero hS0]
  refine ⟨hbkg, ?_, ?_, ?_, ?_, rfl⟩
  · intro h0
    rw [hbkg_e, if_pos (hsqrt0.2 h0)]
  · intro h0
    rw [hbkg_e, if_neg (fun h => h0 (hsqrt0.1 h))]
  · intro i j
    simp only [hres, Image.background_subtraction, roi_subtraction, hsum]
  · intro i j
    have : res.array_e.entry i j = Real.sqrt (res.bkg_e ^ 2 + (img.array_e.entry i j) ^ 2) := by
      simp only [hres, Image.background_subtraction]
    rw [this, add_comm]

/-- Witness for C1 at a concrete 1×1 image with a single 1×1 region. -/
theorem roi_background_subtraction_spec_witness :
    (0 < ([Region.mk 0 1 0 1].map Region.num_pixels).sum) ∧
    (Image.background_subtraction
      (Image.mk ⟨1, 1, fun _ _ => 3⟩ ⟨1, 1, fun _ _ => 2⟩ ⟨1, 1, fun _ _ => 0⟩ 0 0)
      (fun im => roi_subtraction im [Region.mk 0 1 0 1])).bkg =
      (([Region.mk 0 1 0 1].map fun r =>
        ∑ i ∈ Finset.Ico r.x_start.toNat r.x_end.toNat,
          ∑ j ∈ Finset.Ico r.y_start.toNat r.y_end.toNat, (0 : ℝ)).sum) /
        ((([Region.mk 0 1 0 1].map Region.num_pixels).sum : ℤ) : ℝ) := by
  refine ⟨by decide, ?_⟩
  exact (roi_background_subtraction_spec
    (Image.mk ⟨1, 1, fun _ _ => 3⟩ ⟨1, 1, fun _ _ => 2⟩ ⟨1, 1, fun _ _ => 0⟩ 0 0)
    [Region.mk 0 1 0 1]
    (by intro r hr; simp at hr; subst hr; refine ⟨by decide, by decide, by decide, by decide⟩)
    (fun i j => le_refl 0)
    (by decide)).1

/-- C10: `roi_subtraction` reads only `array_original` (and the regions),
and neither `crop` nor `background_subtraction` modifies
`array_original`; hence its output is invariant under those operations. -/
theorem roi_subtraction_ignores_current_state
    (img₁ img₂ : Image) (regions : List Region) (r : Region)
    (f : Image → BkgSubInfo)
    (h : img₁.array_original = img₂.array_original) :
    roi_subtraction img₁ regions = roi_subtraction img₂ regions ∧
    (img₁.crop r).array_original = img₁.array_original ∧
    (img₁.background_subtraction f).array_original = img₁.array_original ∧
    roi_subtraction (img₁.crop r) regions = roi_subtraction img₁ regions ∧
    roi_subtraction (img₁.background_subtraction f) regions =
      roi_subtraction img₁ regions := by
  have key : ∀ i₁ i₂ : Image, i₁.array_original = i₂.array_original →
      roi_subtraction i₁ regions = roi_subtraction i₂ regions := by
    intro i₁ i₂ hh
    simp only [roi_subtraction, hh]
  exact ⟨key _ _ h, rfl, rfl, key _ _ rfl, key _ _ rfl⟩

/-- Witness for C10 on two concrete images sharing `array_original`. -/
theorem roi_subtraction_ignores_current_state_witness :
    roi_subtraction
      (Image.mk ⟨1, 1, fun _ _ => 5⟩ ⟨1, 1, fun _ _ => 1⟩ ⟨1, 1, fun _ _ => 7⟩ 0 0)
      [Region.mk 0 1 0 1] =
    roi_subtraction
      (Image.mk ⟨1, 1, fun _ _ => 9⟩ ⟨1, 1, fun _ _ => 4⟩ ⟨1, 1, fun _ _ => 7⟩ 1 1)
      [Region.mk 0 1 0 1] :=
  (roi_subtraction_ignores_current_state
    (Image.mk ⟨1, 1, fun _ _ => 5⟩ ⟨1, 1, fun _ _ => 1⟩ ⟨1, 1, fun _ _ => 7⟩ 0 0)
    (Image.mk ⟨1, 1, fun _ _ => 9⟩ ⟨1, 1, fun _ _ => 4⟩ ⟨1, 1, fun _ _ => 7⟩ 1 1)
    [Region.mk 0 1 0 1] (Region.mk 0 1 0 1) (fun _ => ⟨0, 0⟩) rfl).1

/-- C4 counterexample: cropping a 2×2 image to the 1×1 region
`[0,1)×[0,1)` leaves `array_original` at shape 2×2 while `array` becomes
1×1, so the three arrays do **not** share a shape after `crop` — the code
never crops `array_original`. -/
theorem crop_array_original_shape_counterexample :
    ((Image.mk ⟨2, 2, fun _ _ => 0⟩ ⟨2, 2, fun _ _ => 0⟩ ⟨2, 2, fun _ _ => 0⟩ 0 0).crop
      (Region.mk 0 1 0 1)).array.rows = 1 ∧
    ((Image.mk ⟨2, 2, fun _ _ => 0⟩ ⟨2, 2, fun _ _ => 0⟩ ⟨2, 2, fun _ _ => 0⟩ 0 0).crop
      (Region.mk 0 1 0 1)).array_original.rows = 2 := by
  constructor <;> rfl

/-- C4 (amended): `Image.crop` restricts `array` and `array_e` (only) to
the half-open sub-rectangle; those two keep identical shapes, while
`array_original`, `bkg` and `bkg_e` are untouched. -/
theorem crop_spec (img : Image) (r : Region)
    (hx0 : 0 ≤ r.x_start) (hx1 : r.x_start ≤ r.x_end)
    (hx2 : r.x_end ≤ (img.array.rows : ℤ))
    (hy0 : 0 ≤ r.y_start) (hy1 : r.y_start ≤ r.y_end)
    (hy2 : r.y_end ≤ (img.array.cols : ℤ))
    (her : img.array_e.rows = img.array.rows)
    (hec : img.array_e.cols = img.array.cols) :
    (((img.crop r).array.rows : ℤ) = r.x_end - r.x_start ∧
      ((img.crop r).array.cols : ℤ) = r.y_end - r.y_start) ∧
    ((img.crop r).array_e.rows = (img.crop r).array.rows ∧
      (img.crop r).array_e.cols = (img.crop r).array.cols) ∧
    (∀ i j, (img.crop r).array.entry i j =
      img.array.entry (r.x_start.toNat + i) (r.y_start.toNat + j)) ∧
    (∀ i j, (img.crop r).array_e.entry i j =
      img.array_e.entry (r.x_start.toNat + i) (r.y_start.toNat + j)) ∧
    (img.crop r).array_original = img.array_original ∧
    (img.crop r).bkg = img.bkg ∧ (img.crop r).bkg_e = img.bkg_e := by
  refine ⟨⟨?_, ?_⟩, ⟨?_, ?_⟩, fun i j => rfl, fun i j => rfl, rfl, rfl, rfl⟩
  · show ((min r.x_end.toNat img.array.rows - min r.x_start.toNat img.array.rows : ℕ) : ℤ) = _
    omega
  · show ((min r.y_end.toNat img.array.cols - min r.y_start.toNat img.array.cols : ℕ) : ℤ) = _
    omega
  · show min r.x_end.toNat img.array_e.rows - min r.x_start.toNat img.array_e.rows =
      min r.x_end.toNat img.array.rows - min r.x_start.toNat img.array.rows
    rw [her]
  · show min r.y_end.toNat img.array_e.cols - min r.y_start.toNat img.array_e.cols =
      min r.y_end.toNat img.array.cols - min r.y_start.toNat img.array.cols
    rw [hec]

/-- Witness for C4's amended statement on a concrete 2×2 image. -/
theorem crop_spec_witness :
    (((Image.mk ⟨2, 2, fun _ _ => 0⟩ ⟨2, 2, fun _ _ => 1⟩ ⟨2, 2, fun _ _ => 2⟩ 0 0).crop
        (Region.mk 0 1 0 2)).array.rows : ℤ) = 1 - 0 ∧
    ((Image.mk ⟨2, 2, fun _ _ => 0⟩ ⟨2, 2, fun _ _ => 1⟩ ⟨2, 2, fun _ _ => 2⟩ 0 0).crop
        (Region.mk 0 1 0 2)).array_original =
      (Image.mk ⟨2, 2, fun _ _ => 0⟩ ⟨2, 2, fun _ _ => 1⟩ ⟨2, 2, fun _ _ => 2⟩ 0 0).array_original := by
  have h := crop_spec
    (Image.mk ⟨2, 2, fun _ _ => 0⟩ ⟨2, 2, fun _ _ => 1⟩ ⟨2, 2, fun _ _ => 2⟩ 0 0)
    (Region.mk 0 1 0 2) (by decide) (by decide) (by decide) (by decide) (by decide)
    (by decide) rfl rfl
  exact ⟨h.1.1, h.2.2.2.2.1⟩

/-! ## Data, MeasurementBase and Scan2D (`data.py`, `scan.py`)

`Data` stores `intensity`, `intensity_e`, `energy` and exactly one of
`_theta` / `_q` (the public `q`/`theta` are properties deriving the
missing one; `Data.__init__` raises `ValueError` when both are `None`).
`np.delete(a, idxs)` removes the entries whose position is in `idxs`;
`Scan2D.remove_data_points` deletes the images at the same indices (in
descending order, which is the same set removal). -/

def npDelete {α : Type} (l : List α) (idxs : List ℕ) : List α :=
  (l.enum.filter fun p => decide (p.1 ∉ idxs)).map Prod.snd

/-- Physical constants exactly as taken from
`scipy.constants.physical_constants` in `data.py`:
`"Planck constant in eV s"` scaled by `1e-3` and
`"speed of light in vacuum"` scaled by `1e10`. -/
noncomputable def planckKeV : ℝ := 4.135667696e-15 * 1e-3

noncomputable def speedOfLightAng : ℝ := 299792458.0 * 1e10

/-- `Data._theta_to_q`. -/
noncomputable def theta_to_q (energy theta : ℝ) : ℝ :=
  Real.sin (theta * (Real.pi / 180)) / (planckKeV * speedOfLightAng) * (energy * 4 * Real.pi)

/-- `Data._q_to_theta` (note the source multiplies the constants *outside*
the `arcsin`, exactly as written there). -/
noncomputable def q_to_theta (energy q : ℝ) : ℝ :=
  planckKeV * speedOfLightAng * Real.arcsin (q / (energy * 4 * Real.pi)) * 180 / Real.pi

structure ScanData where
  intensity : List ℝ
  intensity_e : List ℝ
  energy : ℝ
  qStored : Option (List ℝ)      -- `self._q`
  thetaStored : Option (List ℝ)  -- `self._theta`

/-- The `Data.q` property: stored q, or converted from theta. The
`none`/`none` case is unreachable (the constructor raises). -/
noncomputable def ScanData.q (d : ScanData) : List ℝ :=
  match d.qStored, d.thetaStored with
  | none, some ts => ts.map (theta_to_q d.energy)
  | some qs, _ => qs
  | none, none => []

/-- The `Data.theta` property: stored theta, or converted from q. -/
noncomputable def ScanData.theta (d : ScanData) : List ℝ :=
  match d.thetaStored, d.qStored with
  | none, some qs => qs.map (q_to_theta d.energy)
  | some ts, _ => ts
  | none, none => []

/-- `MeasurementBase.remove_data_points`: `np.delete` on `_q` and `_theta`
when stored, and on `intensity` / `intensity_e`. -/
def ScanData.removeDataPoints (d : ScanData) (idxs : List ℕ) : ScanData where
  intensity := npDelete d.intensity idxs
  intensity_e := npDelete d.intensity_e idxs
  energy := d.energy
  qStored := d.qStored.map (npDelete · idxs)
  thetaStored := d.thetaStored.map (npDelete · idxs)

/-- `Metadata` capability the core reads (`metadata.py` is abstract; the
fields used by `scan.py` / `refl_profile.py`). -/
structure Metadata where
  probe_energy : ℝ
  transmission : ℝ

structure Scan2D where
  data : ScanData
  metadata : Metadata
  images : List Image

/-- `Scan2D.remove_data_points`: the base-class removal plus deleting the
images at the same indices. -/
def Scan2D.removeDataPoints (s : Scan2D) (idxs : List ℕ) : Scan2D where
  data := s.data.removeDataPoints idxs
  metadata := s.metadata
  images := npDelete s.images idxs

/-- The indices `np.where((q < q_min) | (q > q_max))[0]` inside
`Scan2D.subsample_q` — note the *strict* comparisons in the source. -/
noncomputable def illegalQIndices (qs : List ℝ) (q_min q_max : ℝ) : List ℕ :=
  (List.range qs.length).filter fun i => decide (qs.getD i 0 < q_min ∨ q_max < qs.getD i 0)

/-- `Scan2D.subsample_q`. -/
noncomputable def Scan2D.subsample_q (s : Scan2D) (q_min q_max : ℝ) : Scan2D :=
  s.removeDataPoints (illegalQIndices s.data.q q_min q_max)

theorem enumFrom_filter_snd_map {α : Type} (f : α → Bool) :
    ∀ (n : ℕ) (l : List α),
      ((l.enumFrom n).filter fun p => f p.2).map Prod.snd = l.filter f := by
  intro n l
  induction l generalizing n with
  | nil => rfl
  | cons a t ih =>
    simp only [List.enumFrom, List.filter_cons]
    cases h : f a <;> simp [h, ih]

theorem npDelete_nil {α : Type} (l : List α) : npDelete l [] = l := by
  simp [npDelete, List.enum_map_snd]

/-- Deleting the out-of-range indices retains exactly the values in the
closed interval `[q_min, q_max]`, in order. -/
theorem npDelete_illegalQIndices (l : List ℝ) (q_min q_max : ℝ) :
    npDelete l (illegalQIndices l q_min q_max) =
      l.filter fun x => decide (q_min ≤ x ∧ x ≤ q_max) := by
  unfold npDelete
  rw [List.filter_congr (q := fun p : ℕ × ℝ => decide (q_min ≤ p.2 ∧ p.2 ≤ q_max)) ?_,
    show l.enum = l.enumFrom 0 from rfl,
    enumFrom_filter_snd_map (fun x => decide (q_min ≤ x ∧ x ≤ q_max)) 0 l]
  intro p hp
  have hget : l.get? p.1 = some p.2 := List.mem_enum_iff_get?.1 hp
  have hlt : p.1 < l.length := List.get?_eq_some.1 hget |>.1
  have hgetD : l.getD p.1 0 = p.2 := by
    rw [List.getD_eq_get?, hget]; rfl
  have hElem : l[p.1] = p.2 := by
    have h2 : l[p.1]? = some p.2 := by rwa [← List.get?_eq_getElem?]
    obtain ⟨_, h3⟩ := List.getElem?_eq_some.1 h2
    exact h3
  have hmem : p.1 ∈ illegalQIndices l q_min q_max ↔ (p.2 < q_min ∨ q_max < p.2) := by
    simp [illegalQIndices, List.mem_filter, List.mem_range, hlt, hgetD, hElem]
  rcases le_or_lt q_min p.2 with h1 | h1
  · rcases le_or_lt p.2 q_max with h2 | h2
    · simp [hmem, not_or, h1, h2, not_lt.2 h1, not_lt.2 h2]
    · simp [hmem, h2, not_le.2 h2]
  · simp [hmem, h1, not_le.2 h1]

theorem enumFrom_filter_fst_length {α : Type} (f : ℕ → Bool) :
    ∀ (n : ℕ) (l : List α),
      ((l.enumFrom n).filter fun p => f p.1).length =
        ((List.range' n l.length).filter f).length := by
  intro n l
  induction l generalizing n with
  | nil => rfl
  | cons a t ih =>
    simp only [List.enumFrom, List.length_cons, List.range'_succ, List.filter_cons]
    cases h : f n <;> simp [h, ih]

/-- `npDelete` output length depends only on the input length. -/
theorem npDelete_length {α : Type} (l : List α) (idxs : List ℕ) :
    (npDelete l idxs).length =
      ((List.range' 0 l.length).filter fun i => decide (i ∉ idxs)).length := by
  unfold npDelete
  rw [List.length_map, show l.enum = l.enumFrom 0 from rfl,
    enumFrom_filter_fst_length (fun i => decide (i ∉ idxs)) 0 l]

/-- C3 (amended): `subsample_q(q_min, q_max)` deletes exactly the indices
with `qᵢ < q_min` or `qᵢ > q_max` — the *strict* comparisons of the
source, so the retained set is the closed interval `[q_min, q_max]` — and
intensity, intensity_e, θ and the images are cut at the same indices in
lock-step, preserving invariant S1. -/
theorem subsample_q_spec (s : Scan2D) (qs : List ℝ) (q_min q_max : ℝ)
    (hq : s.data.qStored = some qs)
    (hI : s.data.intensity.length = qs.length)
    (hIe : s.data.intensity_e.length = qs.length)
    (him : s.images.length = qs.length) :
    let bad := illegalQIndices qs q_min q_max
    let res := s.subsample_q q_min q_max
    res.data.qStored = some (qs.filter fun x => decide (q_min ≤ x ∧ x ≤ q_max)) ∧
    res.data.intensity = npDelete s.data.intensity bad ∧
    res.data.intensity_e = npDelete s.data.intensity_e bad ∧
    res.images = npDelete s.images bad ∧
    res.data.thetaStored = s.data.thetaStored.map (npDelete · bad) ∧
    (res.data.intensity.length = (npDelete qs bad).length ∧
      res.data.intensity_e.length = (npDelete qs bad).length ∧
      res.images.length = (npDelete qs bad).length) := by
  intro bad res
  obtain ⟨⟨I, Ie, en, qst, tst⟩, md, ims⟩ := s
  cases hq
  have hqprop : (ScanData.mk I Ie en (some qs) tst).q = qs := by
    cases tst <;> rfl
  have hres : res = Scan2D.mk
      (ScanData.mk (npDelete I bad) (npDelete Ie bad) en
        (some (npDelete qs bad)) (tst.map (npDelete · bad)))
      md (npDelete ims bad) := by
    show Scan2D.subsample_q _ q_min q_max = _
    unfold Scan2D.subsample_q
    rw [hqprop]
    cases tst <;> rfl
  refine ⟨?_, ?_, ?_, ?_, ?_, ?_, ?_, ?_⟩
  · rw [hres]
    exact congrArg some (npDelete_illegalQIndices qs q_min q_max)
  · rw [hres]
  · rw [hres]
  · rw [hres]
  · rw [hres]
  · rw [hres]
    show (npDelete I bad).length = (npDelete qs bad).length
    rw [npDelete_length, npDelete_length, hI]
  · rw [hres]
    show (npDelete Ie bad).length = (npDelete qs bad).length
    rw [npDelete_length, npDelete_length, hIe]
  · rw [hres]
    show (npDelete ims bad).length = (npDelete qs bad).length
    rw [npDelete_length, npDelete_length, him]

/-- C3 counterexample: with `q = [1, 2, 3]` and bounds `(q_min, q_max) = (1, 3)`,
the code's strict comparisons delete nothing (retention is the *closed*
interval), while the claim demands that the endpoints `q = 1` and `q = 3`
be deleted leaving `[2]`. -/
theorem subsample_q_strictness_counterexample :
    ((Scan2D.mk (ScanData.mk [5, 6, 7] [1, 1, 1] 12.5 (some [1, 2, 3]) none)
        (Metadata.mk 12.5 1) []).subsample_q 1 3).data.qStored = some [1, 2, 3] ∧
    (([1, 2, 3] : List ℝ).filter fun x => decide (1 < x ∧ x < 3)) = [2] ∧
    some ([1, 2, 3] : List ℝ) ≠ some [2] := by
  have hbad : illegalQIndices [1, 2, 3] 1 3 = [] := by
    unfold illegalQIndices
    rw [List.filter_eq_nil_iff]
    intro i hi
    simp only [List.length_cons, List.length_nil, List.mem_range] at hi
    interval_cases i <;>
      · simp only [List.getD, decide_eq_true_eq, not_or]
        norm_num
  refine ⟨?_, ?_, ?_⟩
  · show ((Scan2D.mk (ScanData.mk [5, 6, 7] [1, 1, 1] 12.5 (some [1, 2, 3]) none)
        (Metadata.mk 12.5 1) []).removeDataPoints
          (illegalQIndices (ScanData.mk [5, 6, 7] [1, 1, 1] 12.5 (some [1, 2, 3]) none).q 1 3)).data.qStored
      = some [1, 2, 3]
    rw [show (ScanData.mk [5, 6, 7] [1, 1, 1] 12.5 (some [1, 2, 3]) none).q = [1, 2, 3] from rfl,
      hbad]
    show some (npDelete [1, 2, 3] []) = some [1, 2, 3]
    rw [npDelete_nil]
  · simp only [List.filter_cons, List.filter_nil, decide_eq_true_eq]
    norm_num
  · intro h
    have h2 : ([1, 2, 3] : List ℝ).length = ([2] : List ℝ).length := by
      rw [Option.some.inj h]
    simp at h2

/-- Witness for C3's amended statement at a concrete three-point scan. -/
theorem subsample_q_spec_witness :
    ((Scan2D.mk (ScanData.mk [5, 6, 7] [1, 1, 1] 12.5 (some [1, 2, 3]) none)
        (Metadata.mk 12.5 1)
        [Image.mk ⟨1, 1, fun _ _ => 0⟩ ⟨1, 1, fun _ _ => 0⟩ ⟨1, 1, fun _ _ => 0⟩ 0 0,
         Image.mk ⟨1, 1, fun _ _ => 0⟩ ⟨1, 1, fun _ _ => 0⟩ ⟨1, 1, fun _ _ => 0⟩ 0 0,
         Image.mk ⟨1, 1, fun _ _ => 0⟩ ⟨1, 1, fun _ _ => 0⟩ ⟨1, 1, fun _ _ => 0⟩ 0 0]).subsample_q
      1 2).data.qStored =
      some (([1, 2, 3] : List ℝ).filter fun x => decide (1 ≤ x ∧ x ≤ 2)) :=
  (subsample_q_spec
    (Scan2D.mk (ScanData.mk [5, 6, 7] [1, 1, 1] 12.5 (some [1, 2, 3]) none)
      (Metadata.mk 12.5 1)
      [Image.mk ⟨1, 1, fun _ _ => 0⟩ ⟨1, 1, fun _ _ => 0⟩ ⟨1, 1, fun _ _ => 0⟩ 0 0,
       Image.mk ⟨1, 1, fun _ _ => 0⟩ ⟨1, 1, fun _ _ => 0⟩ ⟨1, 1, fun _ _ => 0⟩ 0 0,
       Image.mk ⟨1, 1, fun _ _ => 0⟩ ⟨1, 1, fun _ _ => 0⟩ ⟨1, 1, fun _ _ => 0⟩ 0 0])
    [1, 2, 3] 1 2 rfl rfl rfl rfl).1

/-! ## Footprint correction (`corrections.py`, `scan.py`) -/

/-- The standard-normal CDF `Φ`. -/
noncomputable def stdNormCdf (x : ℝ) : ℝ :=
  ∫ t in Set.Iic x, Real.exp (-(t ^ 2) / 2) / Real.sqrt (2 * Real.pi)

/-- Modelled from the spec: `scipy.stats.norm.cdf(x, loc, scale)` — scipy is
external to this repository; per its documented semantics the two-parameter
CDF is the standard-normal CDF of the standardised argument. -/
noncomputable def scipyNormCdf (x loc scale : ℝ) : ℝ :=
  stdNormCdf ((x - loc) / scale)

/-- `corrections.footprint_correction`: replace θ = 0 by 10⁻³ degrees, form
`beam_sd = beam_width/2/√(2 ln 2)`, project it by `sin(radians θ)`, and
return `norm.cdf(L/2, 0, σ) − norm.cdf(−L/2, 0, σ)` per point. -/
noncomputable def corrections.footprint_correction (beam_width sample_size : ℝ)
    (theta : List ℝ) : List ℝ :=
  let theta' := theta.map fun t => if t = 0 then 1e-3 else t
  let beam_sd := beam_width / 2 / Real.sqrt (2 * Real.log 2)
  theta'.map fun t =>
    let projected_beam_sd := beam_sd / Real.sin (t * (Real.pi / 180))
    scipyNormCdf (sample_size / 2) 0 projected_beam_sd -
      scipyNormCdf (-(sample_size / 2)) 0 projected_beam_sd

/-- `Scan2D.footprint_correction`: divide `intensity` and `intensity_e`
elementwise by the correction factors at the scan's θ values. -/
noncomputable def Scan2D.footprint_correction (s : Scan2D)
    (beam_width sample_size : ℝ) : Scan2D :=
  let frac := corrections.footprint_correction beam_width sample_size s.data.theta
  { s with data := { s.data with
      intensity := (s.data.intensity.zip frac).map fun p => p.1 / p.2
      intensity_e := (s.data.intensity_e.zip frac).map fun p => p.1 / p.2 } }

/-- C5: the per-point factor is `Φ(L/(2σ_proj)) − Φ(−L/(2σ_proj))` with
`σ_beam = w/(2·√(2 ln 2))` and `σ_proj = σ_beam / sin(radians θ)` after the
θ = 0 → 10⁻³ degree replacement, and the scan's intensity and intensity_e
are divided elementwise by those factors. -/
theorem footprint_correction_spec (w L : ℝ) (hw : 0 < w) (hL : 0 < L) :
    (∀ theta : List ℝ,
      corrections.footprint_correction w L theta = theta.map fun t =>
        stdNormCdf (L / (2 * ((w / (2 * Real.sqrt (2 * Real.log 2))) /
            Real.sin ((if t = 0 then 1e-3 else t) * (Real.pi / 180))))) -
          stdNormCdf (-L / (2 * ((w / (2 * Real.sqrt (2 * Real.log 2))) /
            Real.sin ((if t = 0 then 1e-3 else t) * (Real.pi / 180)))))) ∧
    (∀ s : Scan2D,
      (s.footprint_correction w L).data.intensity =
        (s.data.intensity.zip (corrections.footprint_correction w L s.data.theta)).map
          (fun p => p.1 / p.2) ∧
      (s.footprint_correction w L).data.intensity_e =
        (s.data.intensity_e.zip (corrections.footprint_correction w L s.data.theta)).map
          (fun p => p.1 / p.2)) := by
  constructor
  · intro theta
    unfold corrections.footprint_correction
    rw [List.map_map]
    refine List.map_congr_left fun t _ => ?_
    have hsd : w / 2 / Real.sqrt (2 * Real.log 2) = w / (2 * Real.sqrt (2 * Real.log 2)) :=
      div_div w 2 (Real.sqrt (2 * Real.log 2))
    set sproj := w / (2 * Real.sqrt (2 * Real.log 2)) /
      Real.sin ((if t = 0 then 1e-3 else t) * (Real.pi / 180)) with hsproj
    show scipyNormCdf (L / 2) 0 _ - scipyNormCdf (-(L / 2)) 0 _ = _
    unfold scipyNormCdf
    rw [hsd]
    have h1 : (L / 2 - 0) / sproj = L / (2 * sproj) := by
      rw [sub_zero, div_div]
    have h2 : (-(L / 2) - 0) / sproj = -L / (2 * sproj) := by
      rw [sub_zero, neg_div, div_div, ← neg_div]
    rw [h1, h2]
  · intro s
    exact ⟨rfl, rfl⟩

/-- Witness for C5 at `w = 1`, `L = 1`. -/
theorem footprint_correction_spec_witness :
    (0 : ℝ) < 1 ∧
    corrections.footprint_correction 1 1 [0.2] = ([0.2] : List ℝ).map fun t =>
      stdNormCdf (1 / (2 * ((1 / (2 * Real.sqrt (2 * Real.log 2))) /
          Real.sin ((if t = 0 then 1e-3 else t) * (Real.pi / 180))))) -
        stdNormCdf (-1 / (2 * ((1 / (2 * Real.sqrt (2 * Real.log 2))) /
          Real.sin ((if t = 0 then 1e-3 else t) * (Real.pi / 180))))) :=
  ⟨by norm_num, (footprint_correction_spec 1 1 (by norm_num) (by norm_num)).1 [0.2]⟩

/-! ## Rebinning (`stitching.py`)

`rebin` is embedded on its explicit-grid path (the claims all concern a
supplied `new_q`; when `new_q is None` the source first generates a
linear/log grid and then runs the same loop). The loop fills length-N
zero arrays for bins `i < N−1`, skipping empty bins, and finally
`np.delete`s every position where `binned_R == 0`. -/

noncomputable def binIndices (q : List ℝ) (lo hi : ℝ) : List ℕ :=
  (List.range q.length).filter fun j => decide (lo ≤ q.getD j 0 ∧ q.getD j 0 < hi)

/-- The index set `K` of bin `i`: `{j | new_q[i] ≤ q[j] < new_q[i+1]}`. -/
noncomputable def binK (q newQ : List ℝ) (i : ℕ) : List ℕ :=
  binIndices q (newQ.getD i 0) (newQ.getD (i + 1) 0)

/-- `sum_of_inverse_var`: `Σ_{j∈K} 1/R_e[j]²`. -/
noncomputable def sumW (Re : List ℝ) (K : List ℕ) : ℝ :=
  (K.map fun j => 1 / (Re.getD j 0) ^ 2).sum

/-- `Σ_{j∈K} vals[j]/R_e[j]²` — the accumulation `binned[i] += v[j]/(R_e[j]**2)`. -/
noncomputable def sumWVals (vals Re : List ℝ) (K : List ℕ) : ℝ :=
  (K.map fun j => vals.getD j 0 / (Re.getD j 0) ^ 2).sum

/-- The inverse-variance-weighted mean of `vals` over the bin `K`. -/
noncomputable def wMean (vals Re : List ℝ) (K : List ℕ) : ℝ :=
  sumWVals vals Re K / sumW Re K

/-- `np.delete(vals, np.argwhere(flags == 0))`: keep positions whose flag
is nonzero. -/
noncomputable def cleanup (vals flags : List ℝ) : List ℝ :=
  ((vals.zip flags).filter fun p => decide (p.2 ≠ 0)).map Prod.fst

noncomputable def rebin (q R Re newQ : List ℝ) : List ℝ × List ℝ × List ℝ :=
  let binned_q := (List.range newQ.length).map fun i =>
    if i + 1 < newQ.length ∧ binK q newQ i ≠ [] then wMean q Re (binK q newQ i) else 0
  let binned_R := (List.range newQ.length).map fun i =>
    if i + 1 < newQ.length ∧ binK q newQ i ≠ [] then wMean R Re (binK q newQ i) else 0
  let binned_R_e := (List.range newQ.length).map fun i =>
    if i + 1 < newQ.length ∧ binK q newQ i ≠ [] then
      Real.sqrt (1 / sumW Re (binK q newQ i)) else 0
  (cleanup binned_q binned_R, cleanup binned_R binned_R, cleanup binned_R_e binned_R)

/-- The surviving bins: `i < N−1` with a nonempty `K` and a nonzero
weighted intensity. -/
noncomputable def goodBins (q R Re newQ : List ℝ) : List ℕ :=
  (List.range (newQ.length - 1)).filter fun i =>
    decide (binK q newQ i ≠ [] ∧ wMean R Re (binK q newQ i) ≠ 0)

theorem cleanup_of_maps (N : ℕ) (v flag : ℕ → ℝ) :
    cleanup ((List.range N).map v) ((List.range N).map flag) =
      ((List.range N).filter fun i => decide (flag i ≠ 0)).map v := by
  unfold cleanup
  rw [List.zip_map', List.filter_map, List.map_map]
  rfl

theorem rebin_flags_filter (q R Re newQ : List ℝ) :
    ((List.range newQ.length).filter fun i =>
      decide ((if i + 1 < newQ.length ∧ binK q newQ i ≠ []
        then wMean R Re (binK q newQ i) else 0) ≠ 0)) = goodBins q R Re newQ := by
  unfold goodBins
  rcases Nat.eq_zero_or_pos newQ.length with h0 | hpos
  · simp [h0]
  · rw [show List.range newQ.length = List.range (newQ.length - 1) ++ [newQ.length - 1] by
      rw [← List.range_succ]; congr 1; omega]
    rw [List.filter_append]
    have hlast : (([newQ.length - 1] : List ℕ).filter fun i =>
        decide ((if i + 1 < newQ.length ∧ binK q newQ i ≠ []
          then wMean R Re (binK q newQ i) else 0) ≠ 0)) = [] := by
      have hcond : ¬(newQ.length - 1 + 1 < newQ.length ∧ binK q newQ (newQ.length - 1) ≠ []) := by
        rintro ⟨h, -⟩; omega
      have hval : (if newQ.length - 1 + 1 < newQ.length ∧ binK q newQ (newQ.length - 1) ≠ []
          then wMean R Re (binK q newQ (newQ.length - 1)) else 0) = 0 := if_neg hcond
      simp [hval]
      intro h
      omega
    rw [hlast, List.append_nil]
    apply List.filter_congr
    intro i hi
    have h1 : i + 1 < newQ.length := by
      have := List.mem_range.1 hi; omega
    by_cases hK : binK q newQ i = []
    · simp [hK, h1]
    · simp [hK, h1]

/-- The three outputs of `rebin` are exactly the weighted values of the
surviving bins, in bin order. -/
theorem rebin_eq_goodBins (q R Re newQ : List ℝ) :
    rebin q R Re newQ =
      ((goodBins q R Re newQ).map fun i => wMean q Re (binK q newQ i),
       (goodBins q R Re newQ).map fun i => wMean R Re (binK q newQ i),
       (goodBins q R Re newQ).map fun i => Real.sqrt (1 / sumW Re (binK q newQ i))) := by
  unfold rebin
  dsimp only
  rw [cleanup_of_maps, cleanup_of_maps, cleanup_of_maps, rebin_flags_filter]
  have hmem : ∀ i ∈ goodBins q R Re newQ, i + 1 < newQ.length ∧ binK q newQ i ≠ [] := by
    intro i hi
    unfold goodBins at hi
    have h1 := List.mem_range.1 (List.mem_of_mem_filter hi)
    have h2 := List.of_mem_filter hi
    simp only [decide_eq_true_eq] at h2
    exact ⟨by omega, h2.1⟩
  refine Prod.ext ?_ (Prod.ext ?_ ?_) <;> simp only
  · exact List.map_congr_left fun i hi => if_pos (hmem i hi)
  · exact List.map_congr_left fun i hi => if_pos (hmem i hi)
  · exact List.map_congr_left fun i hi => if_pos (hmem i hi)

theorem sumW_pos (Re : List ℝ) (K : List ℕ) (hK : K ≠ [])
    (hw : ∀ j ∈ K, 0 < 1 / (Re.getD j 0) ^ 2) : 0 < sumW Re K := by
  unfold sumW
  apply List.sum_pos
  · intro x hx
    obtain ⟨j, hj, rfl⟩ := List.mem_map.1 hx
    exact hw j hj
  · simpa using hK

/-- A positively-weighted mean of values lying in `[lo, hi)` lies in `[lo, hi)`. -/
theorem wMean_mem_Ico (vals Re : List ℝ) (K : List ℕ) (lo hi : ℝ) (hK : K ≠ [])
    (hw : ∀ j ∈ K, 0 < 1 / (Re.getD j 0) ^ 2)
    (hv : ∀ j ∈ K, lo ≤ vals.getD j 0 ∧ vals.getD j 0 < hi) :
    lo ≤ wMean vals Re K ∧ wMean vals Re K < hi := by
  have hW : 0 < sumW Re K := sumW_pos Re K hK hw
  have hterm : ∀ j ∈ K, vals.getD j 0 / (Re.getD j 0) ^ 2 =
      vals.getD j 0 * (1 / (Re.getD j 0) ^ 2) := by
    intro j _
    rw [div_eq_mul_one_div]
  unfold wMean
  constructor
  · rw [le_div_iff hW]
    unfold sumWVals
    calc lo * sumW Re K = (K.map fun j => lo * (1 / (Re.getD j 0) ^ 2)).sum := by
          unfold sumW
          rw [List.sum_map_mul_left]
      _ ≤ (K.map fun j => vals.getD j 0 / (Re.getD j 0) ^ 2).sum := by
          apply List.sum_le_sum
          intro j hj
          rw [hterm j hj]
          exact mul_le_mul_of_nonneg_right (hv j hj).1 (le_of_lt (hw j hj))
  · rw [div_lt_iff hW]
    unfold sumWVals
    calc (K.map fun j => vals.getD j 0 / (Re.getD j 0) ^ 2).sum
        < (K.map fun j => hi * (1 / (Re.getD j 0) ^ 2)).sum := by
          apply List.sum_lt_sum
          · intro j hj
            rw [hterm j hj]
            exact mul_le_mul_of_nonneg_right (le_of_lt (hv j hj).2) (le_of_lt (hw j hj))
          · obtain ⟨j, hj⟩ := List.exists_mem_of_ne_nil K hK
            refine ⟨j, hj, ?_⟩
            rw [hterm j hj]
            exact mul_lt_mul_of_pos_right (hv j hj).2 (hw j hj)
      _ = hi * sumW Re K := by
          unfold sumW
          rw [List.sum_map_mul_left]

/-- Members of a bin are in-range indices whose `q` lies in the bin. -/
theorem mem_binK (q newQ : List ℝ) (i j : ℕ) (hj : j ∈ binK q newQ i) :
    j < q.length ∧ newQ.getD i 0 ≤ q.getD j 0 ∧ q.getD j 0 < newQ.getD (i + 1) 0 := by
  unfold binK binIndices at hj
  have h1 := List.mem_range.1 (List.mem_of_mem_filter hj)
  have h2 := List.of_mem_filter hj
  simp only [decide_eq_true_eq] at h2
  exact ⟨h1, h2⟩

theorem binK_weights_pos (q Re newQ : List ℝ) (i : ℕ)
    (hlen : Re.length = q.length) (hσ : ∀ x ∈ Re, 0 < x) :
    ∀ j ∈ binK q newQ i, 0 < 1 / (Re.getD j 0) ^ 2 := by
  intro j hj
  have hjq := (mem_binK q newQ i j hj).1
  have hjRe : j < Re.length := hlen ▸ hjq
  have hmem : Re.getD j 0 ∈ Re := by
    rw [List.getD_eq_get _ _ hjRe]
    exact List.get_mem Re j hjRe
  have := hσ _ hmem
  positivity

theorem mem_goodBins (q R Re newQ : List ℝ) (i : ℕ) (hi : i ∈ goodBins q R Re newQ) :
    i < newQ.length - 1 ∧ binK q newQ i ≠ [] ∧ wMean R Re (binK q newQ i) ≠ 0 := by
  unfold goodBins at hi
  have h1 := List.mem_range.1 (List.mem_of_mem_filter hi)
  have h2 := List.of_mem_filter hi
  simp only [decide_eq_true_eq] at h2
  exact ⟨h1, h2.1, h2.2⟩

/-- C6: with a strictly increasing target grid of length `N` and positive
input uncertainties, `rebin`'s three outputs share one length, that length
is at most `N − 1`, and the output `q` values are strictly increasing;
empty bins and bins whose weighted intensity is exactly 0 are dropped. -/
theorem rebin_length_sorted_spec (q R Re newQ : List ℝ)
    (hsorted : List.Sorted (· < ·) newQ)
    (hlen : Re.length = q.length)
    (hσ : ∀ x ∈ Re, 0 < x) :
    (rebin q R Re newQ).1.length ≤ newQ.length - 1 ∧
    (rebin q R Re newQ).2.1.length = (rebin q R Re newQ).1.length ∧
    (rebin q R Re newQ).2.2.length = (rebin q R Re newQ).1.length ∧
    List.Sorted (· < ·) (rebin q R Re newQ).1 ∧
    ∀ i ∈ List.range (newQ.length - 1),
      (binK q newQ i = [] ∨ wMean R Re (binK q newQ i) = 0) → i ∉ goodBins q R Re newQ := by
  rw [rebin_eq_goodBins]
  refine ⟨?_, ?_, ?_, ?_, ?_⟩
  · simp only [List.length_map]
    calc (goodBins q R Re newQ).length ≤ (List.range (newQ.length - 1)).length :=
          List.length_filter_le _ _
      _ = newQ.length - 1 := List.length_range _
  · simp
  · simp
  · unfold List.Sorted
    rw [List.pairwise_map]
    have hp : (goodBins q R Re newQ).Pairwise (· < ·) :=
      List.Pairwise.sublist (List.filter_sublist _) (List.pairwise_lt_range _)
    refine List.Pairwise.imp_of_mem ?_ hp
    intro i i' hi hi' hii
    obtain ⟨hiN, hKi, -⟩ := mem_goodBins q R Re newQ i hi
    obtain ⟨hiN', hKi', -⟩ := mem_goodBins q R Re newQ i' hi'
    have hb := wMean_mem_Ico q Re (binK q newQ i) (newQ.getD i 0) (newQ.getD (i + 1) 0) hKi
      (binK_weights_pos q Re newQ i hlen hσ) (fun j hj => (mem_binK q newQ i j hj).2)
    have hb' := wMean_mem_Ico q Re (binK q newQ i') (newQ.getD i' 0) (newQ.getD (i' + 1) 0) hKi'
      (binK_weights_pos q Re newQ i' hlen hσ) (fun j hj => (mem_binK q newQ i' j hj).2)
    have hmid : newQ.getD (i + 1) 0 ≤ newQ.getD i' 0 := by
      rcases eq_or_lt_of_le (Nat.succ_le_of_lt hii) with he | hlt
      · exact le_of_eq (by rw [← he])
      · have h1 : i + 1 < newQ.length := by omega
        have h2 : i' < newQ.length := by omega
        rw [List.getD_eq_get _ _ h1, List.getD_eq_get _ _ h2]
        exact le_of_lt (List.Sorted.rel_get_of_lt hsorted (Fin.mk_lt_mk.2 hlt))
    exact lt_of_lt_of_le hb.2 (le_trans hmid hb'.1)
  · intro i _ hbad hmem
    obtain ⟨-, hK, hR⟩ := mem_goodBins q R Re newQ i hmem
    rcases hbad with h | h
    · exact hK h
    · exact hR h

/-- Witness for C6 at a concrete grid and input. -/
theorem rebin_length_sorted_spec_witness :
    (∀ x ∈ ([1] : List ℝ), 0 < x) ∧
    (rebin [0.5] [2] [1] [0, 1]).1.length ≤ ([0, 1] : List ℝ).length - 1 ∧
    List.Sorted (· < ·) (rebin [0.5] [2] [1] [0, 1]).1 := by
  have h := rebin_length_sorted_spec [0.5] [2] [1] [0, 1]
    (by simp [List.sorted_cons]) rfl (by intro x hx; simp at hx; rw [hx]; norm_num)
  exact ⟨by intro x hx; simp at hx; rw [hx]; norm_num, h.1, h.2.2.2.1⟩

/-- C2 (amended): every bin `i < N−1` with non-empty `K` and nonzero
weighted intensity contributes `(q'ᵢ, I'ᵢ, σI'ᵢ)` with
`I'ᵢ = (Σ wⱼIⱼ)/W`, `q'ᵢ = (Σ wⱼqⱼ)/W`, `σI'ᵢ = √(1/W)`, `wⱼ = 1/σIⱼ²`,
`W = Σ wⱼ`, in bin order; bins with empty `K` — and bins whose weighted
intensity is exactly 0 — produce no output.  A bin holding exactly two
points of equal σ yields the arithmetic mean and σ/√2. -/
theorem rebin_weighted_mean_spec (q R Re newQ : List ℝ)
    (hlen : Re.length = q.length)
    (hσ : ∀ x ∈ Re, 0 < x) :
    ((rebin q R Re newQ).1 = (goodBins q R Re newQ).map fun i =>
      sumWVals q Re (binK q newQ i) / sumW Re (binK q newQ i)) ∧
    ((rebin q R Re newQ).2.1 = (goodBins q R Re newQ).map fun i =>
      sumWVals R Re (binK q newQ i) / sumW Re (binK q newQ i)) ∧
    ((rebin q R Re newQ).2.2 = (goodBins q R Re newQ).map fun i =>
      Real.sqrt (1 / sumW Re (binK q newQ i))) ∧
    (∀ i j₁ j₂ σ, binK q newQ i = [j₁, j₂] →
      j₁ < Re.length → j₂ < Re.length →
      Re.getD j₁ 0 = σ → Re.getD j₂ 0 = σ →
      wMean R Re (binK q newQ i) = (R.getD j₁ 0 + R.getD j₂ 0) / 2 ∧
      Real.sqrt (1 / sumW Re (binK q newQ i)) = σ / Real.sqrt 2) := by
  have hchar := rebin_eq_goodBins q R Re newQ
  refine ⟨?_, ?_, ?_, ?_⟩
  · rw [hchar]
    rfl
  · rw [hchar]
    rfl
  · rw [hchar]
  · intro i j₁ j₂ σ hK h1 h2 hσ1 hσ2
    have hσmem : σ ∈ Re := by
      rw [← hσ1, List.getD_eq_get _ _ h1]
      exact List.get_mem Re j₁ h1
    have hσpos : 0 < σ := hσ _ hσmem
    have hσne : σ ≠ 0 := ne_of_gt hσpos
    have hsumW : sumW Re (binK q newQ i) = 2 / σ ^ 2 := by
      rw [hK]
      unfold sumW
      simp only [List.map_cons, List.map_nil, List.sum_cons, List.sum_nil, hσ1, hσ2, add_zero]
      rw [div_add_div_same]
      norm_num
    constructor
    · have hsumV : sumWVals R Re (binK q newQ i) = (R.getD j₁ 0 + R.getD j₂ 0) / σ ^ 2 := by
        rw [hK]
        unfold sumWVals
        simp only [List.map_cons, List.map_nil, List.sum_cons, List.sum_nil, hσ1, hσ2, add_zero]
        rw [div_add_div_same]
      unfold wMean
      rw [hsumV, hsumW]
      field_simp
    · rw [hsumW]
      have h12 : 1 / ((2 : ℝ) / σ ^ 2) = σ ^ 2 / 2 := by
        field_simp
      rw [h12, Real.sqrt_div (sq_nonneg σ), Real.sqrt_sq hσpos.le]

/-- Witness for C2's amended statement at a concrete input. -/
theorem rebin_weighted_mean_spec_witness :
    (∀ x ∈ ([1] : List ℝ), 0 < x) ∧
    (rebin [0.5] [2] [1] [0, 1]).2.1 =
      (goodBins [0.5] [2] [1] [0, 1]).map fun i =>
        sumWVals [2] [1] (binK [0.5] [0, 1] i) / sumW [1] (binK [0.5] [0, 1] i) := by
  have hpos : ∀ x ∈ ([1] : List ℝ), 0 < x := by
    intro x hx; simp at hx; rw [hx]; norm_num
  exact ⟨hpos, (rebin_weighted_mean_spec [0.5] [2] [1] [0, 1] rfl hpos).2.1⟩

/-- C2 counterexample: with `new_q = [0, 1, 2]`, points `q = [0.5, 0.5]`,
`I = [1, −1]`, `σI = [1, 1]`, bin 0 has `K = [0, 1] ≠ ∅` but its weighted
intensity is `0`, so the final `np.delete(..., binned_R == 0)` removes it:
`rebin` returns empty outputs where the claim promises an output triple
for bin 0. -/
theorem rebin_nonempty_bin_dropped_counterexample :
    binK [0.5, 0.5] [0, 1, 2] 0 = [0, 1] ∧
    wMean [1, -1] [1, 1] (binK [0.5, 0.5] [0, 1, 2] 0) = 0 ∧
    (rebin [0.5, 0.5] [1, -1] [1, 1] [0, 1, 2]).2.1 = [] ∧
    (rebin [0.5, 0.5] [1, -1] [1, 1] [0, 1, 2]).1 = [] := by
  have hK0 : binK [0.5, 0.5] [0, 1, 2] 0 = [0, 1] := by
    unfold binK binIndices
    rw [show List.range ([(0.5 : ℝ), 0.5].length) = [0, 1] from rfl]
    simp only [List.filter_cons, List.filter_nil, decide_eq_true_eq,
      List.getD_cons_zero, List.getD_cons_succ]
    norm_num
  have hK1 : binK [0.5, 0.5] [0, 1, 2] 1 = [] := by
    unfold binK binIndices
    rw [show List.range ([(0.5 : ℝ), 0.5].length) = [0, 1] from rfl]
    simp only [List.filter_cons, List.filter_nil, decide_eq_true_eq,
      List.getD_cons_zero, List.getD_cons_succ]
    norm_num
  have hmean : wMean [1, -1] [1, 1] ([0, 1] : List ℕ) = 0 := by
    unfold wMean sumWVals
    simp only [List.map_cons, List.map_nil, List.sum_cons, List.sum_nil,
      List.getD_cons_zero, List.getD_cons_succ]
    norm_num
  have hgood : goodBins [0.5, 0.5] [1, -1] [1, 1] [0, 1, 2] = [] := by
    unfold goodBins
    rw [List.filter_eq_nil_iff]
    intro i hi
    rw [show ([(0 : ℝ), 1, 2].length - 1) = 2 from rfl] at hi
    have hi2 := List.mem_range.1 hi
    interval_cases i
    · simp [hK0, hmean]
    · simp [hK1]
  have hchar := rebin_eq_goodBins [0.5, 0.5] [1, -1] [1, 1] [0, 1, 2]
  refine ⟨hK0, by rw [hK0]; exact hmean, ?_, ?_⟩
  · rw [hchar]
    simp [hgood]
  · rw [hchar]
    simp [hgood]

/-! ## Profile (`refl_profile.py`, `stitching.concatenate`) -/

/-- Modelled from the spec: `Data.q_vectors`, the exposed q vector of a
dataset. `stitching.concatenate` reads `scan.q_vectors` and the tests
construct `Data(..., q_vectors=...)` and read `.q_vectors`, but the
attribute is missing from `src/islatu/data.py` (which names it `q`); per
the spec it is the same q vector. -/
noncomputable def ScanData.q_vectors (d : ScanData) : List ℝ := d.q

/-- `stitching.concatenate`: append every scan's q, intensity and
intensity_e in list order. -/
noncomputable def concatenate (scan_list : List Scan2D) : List ℝ × List ℝ × List ℝ :=
  ((scan_list.map fun s => s.data.q_vectors).join,
   (scan_list.map fun s => s.data.intensity).join,
   (scan_list.map fun s => s.data.intensity_e).join)

structure Profile where
  data : ScanData
  scans : List Scan2D

/-- `Profile.fromfilenames`, after the parser has produced the scans:
concatenate their data, take `scans[0].metadata.probe_energy` (the source
comments that energy-independence across scans is an *implicit
assumption*; nothing is checked), and build the profile's Data with the
concatenated q. An empty scan list raises `IndexError` in the source. -/
noncomputable def Profile.fromfilenames (scans : List Scan2D) : Profile where
  data := ScanData.mk (concatenate scans).2.1 (concatenate scans).2.2
    (match scans with | s :: _ => s.metadata.probe_energy | [] => 0)
    (some (concatenate scans).1) none
  scans := scans

/-- C9 (amended): `Profile.fromfilenames` performs no energy-consistency
check: it always succeeds, the profile's energy is the first scan's
energy, and its data is the in-order concatenation of the scans' data. -/
theorem profile_energy_first_scan (s : Scan2D) (rest : List Scan2D) :
    (Profile.fromfilenames (s :: rest)).data.energy = s.metadata.probe_energy ∧
    (Profile.fromfilenames (s :: rest)).data.intensity =
      ((s :: rest).map fun t => t.data.intensity).join ∧
    (Profile.fromfilenames (s :: rest)).data.intensity_e =
      ((s :: rest).map fun t => t.data.intensity_e).join ∧
    (Profile.fromfilenames (s :: rest)).data.qStored =
      some (((s :: rest).map fun t => t.data.q_vectors).join) ∧
    (Profile.fromfilenames (s :: rest)).scans = s :: rest :=
  ⟨rfl, rfl, rfl, rfl, rfl⟩

/-- C9 counterexample: two scans with different metadata energies (1 keV
and 2 keV). The claim says construction must fail with
`InconsistentProfile`; the embedded source succeeds and silently takes
the first scan's energy — no such check (or exception type) exists
anywhere in the source. -/
theorem profile_inconsistent_energy_counterexample :
    (Scan2D.mk (ScanData.mk [1] [1] 1 (some [0.1]) none) (Metadata.mk 1 1)
        []).metadata.probe_energy ≠
      (Scan2D.mk (ScanData.mk [2] [2] 2 (some [0.2]) none) (Metadata.mk 2 1)
        []).metadata.probe_energy ∧
    (Profile.fromfilenames
      [Scan2D.mk (ScanData.mk [1] [1] 1 (some [0.1]) none) (Metadata.mk 1 1) [],
       Scan2D.mk (ScanData.mk [2] [2] 2 (some [0.2]) none) (Metadata.mk 2 1)
        []]).data.energy = 1 ∧
    (Profile.fromfilenames
      [Scan2D.mk (ScanData.mk [1] [1] 1 (some [0.1]) none) (Metadata.mk 1 1) [],
       Scan2D.mk (ScanData.mk [2] [2] 2 (some [0.2]) none) (Metadata.mk 2 1)
        []]).scans.length = 2 := by
  refine ⟨by norm_num, rfl, rfl⟩

/-! ## Hot-pixel repair (`_average_out_hot`, old-tree `islatu/image.py`)

Detector counts are natural numbers (the raw array is integer-typed, so
the float quotient assigned back into it truncates — natural division).
`np.where(array > hot_pixel_max)` is taken once, in row-major order, and
the loop then mutates the array in place, one hot position at a time.

For a hot pixel `(x, y)` the code clamps `a = 1 if x == 0 else x` (the
`elif x == shape-1` branch re-assigns `a = shape-1`, a no-op), slices
`local = array[a-1:a+2, b-1:b+2]` (numpy clips the upper bound), zeroes
the hot pixel's cell `local[j, k]`, and compares `local.mean()` — the sum
of the *other* window cells divided by the *full* window size — with
`value/100`; on success it stores `local.sum() // (local.size - 1)`. -/

structure NArr where
  rows : ℕ
  cols : ℕ
  entry : ℕ → ℕ → ℕ

def NArr.update (A : NArr) (x y v : ℕ) : NArr :=
  { A with entry := fun i j => if i = x ∧ j = y then v else A.entry i j }

/-- `a = 1 if x == 0 else x`. -/
def clampIdx (x : ℕ) : ℕ := if x = 0 then 1 else x

/-- Lower edge `a - 1` of the window slice. -/
def wLo (x : ℕ) : ℕ := clampIdx x - 1

/-- Upper edge of the window slice `a - 1 : a + 2`, clipped to the shape. -/
def wHi (dim x : ℕ) : ℕ := min (clampIdx x + 2) dim

/-- `local.sum()` after `local[j, k] = 0` — the hot pixel's own cell is
excluded from the sum. -/
def localSum (A : NArr) (x y : ℕ) : ℕ :=
  ∑ r ∈ Finset.Ico (wLo x) (wHi A.rows x),
    ∑ c ∈ Finset.Ico (wLo y) (wHi A.cols y),
      if r = x ∧ c = y then 0 else A.entry r c

/-- `local.size`: the number of cells of the clipped window (the zeroed
cell included). -/
def localSize (A : NArr) (x y : ℕ) : ℕ :=
  (wHi A.rows x - wLo x) * (wHi A.cols y - wLo y)

/-- One iteration of the repair loop at hot position `p`; the float
comparison `local.mean() < value/100` is the exact cross-multiplied
integer comparison, and the truncating store is natural division. -/
def hotStep (A : NArr) (p : ℕ × ℕ) : NArr :=
  if 100 * localSum A p.1 p.2 < localSize A p.1 p.2 * A.entry p.1 p.2 then
    A.update p.1 p.2 (localSum A p.1 p.2 / (localSize A p.1 p.2 - 1))
  else A

/-- `np.where(array > hot_pixel_max)` in row-major order. -/
def hotPixelList (A : NArr) (H : ℕ) : List (ℕ × ℕ) :=
  (List.range A.rows).bind fun i =>
    ((List.range A.cols).filter fun j => decide (H < A.entry i j)).map fun j => (i, j)

/-- `_average_out_hot(array, hot_pixel_max)`. -/
def averageOutHot (A : NArr) (H : ℕ) : NArr :=
  (hotPixelList A H).foldl hotStep A

/-- Old-tree `Image.__init__`: the repair runs exactly once as a pre-pass
(`array = _average_out_hot(array, hot_pixel_max)`); the following
`array[array < pixel_min] = 0` clamp is the identity at the default
`pixel_min = 0` on natural counts. -/
def imageInitArray (raw : NArr) (H : ℕ) : NArr := averageOutHot raw H

/-- The claim's pointwise repair rule, transcribed from its words: every
pixel with value ≥ H whose neighbourhood mean *excluding the pixel
itself* (denominator `size − 1`) is less than value/100 becomes that mean
rounded down. (Comparison cross-multiplied, floor as natural division.) -/
def hotRepairClaimed (A : NArr) (H : ℕ) : NArr :=
  { A with entry := fun x y =>
      if H ≤ A.entry x y ∧
          100 * localSum A x y < (localSize A x y - 1) * A.entry x y then
        localSum A x y / (localSize A x y - 1)
      else A.entry x y }

theorem mem_hotPixelList (A : NArr) (H : ℕ) (z : ℕ × ℕ) :
    z ∈ hotPixelList A H ↔ z.1 < A.rows ∧ z.2 < A.cols ∧ H < A.entry z.1 z.2 := by
  unfold hotPixelList
  rcases z with ⟨x, y⟩
  simp only [List.mem_bind, List.mem_map, List.mem_filter, List.mem_range,
    decide_eq_true_eq]
  constructor
  · rintro ⟨i, hi, j, ⟨hj, hH⟩, rfl, rfl⟩
    exact ⟨hi, hj, hH⟩
  · rintro ⟨hx, hy, hH⟩
    refine ⟨x, hx, y, ⟨hy, hH⟩, ?_⟩
    simp

theorem hotStep_entry_ne (M : NArr) (p : ℕ × ℕ) (i j : ℕ) (h : (i, j) ≠ p) :
    (hotStep M p).entry i j = M.entry i j := by
  unfold hotStep
  split
  · show (if i = p.1 ∧ j = p.2 then _ else M.entry i j) = M.entry i j
    rw [if_neg]
    rintro ⟨rfl, rfl⟩
    exact h rfl
  · rfl

theorem hotStep_dims (M : NArr) (p : ℕ × ℕ) :
    (hotStep M p).rows = M.rows ∧ (hotStep M p).cols = M.cols := by
  unfold hotStep
  split <;> exact ⟨rfl, rfl⟩

theorem foldl_hotStep_dims (ps : List (ℕ × ℕ)) (M : NArr) :
    (ps.foldl hotStep M).rows = M.rows ∧ (ps.foldl hotStep M).cols = M.cols := by
  induction ps generalizing M with
  | nil => exact ⟨rfl, rfl⟩
  | cons p ps ih =>
    rw [List.foldl_cons]
    refine ⟨?_, ?_⟩
    · rw [(ih (hotStep M p)).1, (hotStep_dims M p).1]
    · rw [(ih (hotStep M p)).2, (hotStep_dims M p).2]

theorem foldl_hotStep_frame (ps : List (ℕ × ℕ)) (M : NArr) (z : ℕ × ℕ)
    (hz : z ∉ ps) : (ps.foldl hotStep M).entry z.1 z.2 = M.entry z.1 z.2 := by
  induction ps generalizing M with
  | nil => rfl
  | cons p ps ih =>
    rw [List.foldl_cons, ih _ (fun h => hz (List.mem_cons_of_mem p h)),
      hotStep_entry_ne]
    · rintro rfl
      exact hz (List.mem_cons_self _ _)

theorem hotPixelList_nodup (A : NArr) (H : ℕ) : (hotPixelList A H).Nodup := by
  unfold hotPixelList
  rw [List.nodup_bind]
  constructor
  · intro i _
    exact List.Nodup.map (fun a b h => congrArg Prod.snd h)
      (List.Nodup.filter _ (List.nodup_range _))
  · refine List.Pairwise.imp ?_ (List.pairwise_lt_range A.rows)
    intro i i' hlt
    intro z hz hz'
    simp only [List.mem_map, List.mem_filter, List.mem_range] at hz hz'
    obtain ⟨j, -, rfl⟩ := hz
    obtain ⟨j', -, hj⟩ := hz'
    have : i' = i := congrArg Prod.fst hj
    omega

theorem localSum_congr (M A : NArr) (x y : ℕ)
    (hr : M.rows = A.rows) (hc : M.cols = A.cols)
    (hagree : ∀ r c, wLo x ≤ r → r < wHi A.rows x → wLo y ≤ c → c < wHi A.cols y →
      ¬(r = x ∧ c = y) → M.entry r c = A.entry r c) :
    localSum M x y = localSum A x y ∧ localSize M x y = localSize A x y := by
  constructor
  · unfold localSum
    rw [hr, hc]
    refine Finset.sum_congr rfl fun r hrr => Finset.sum_congr rfl fun c hcc => ?_
    by_cases h : r = x ∧ c = y
    · rw [if_pos h, if_pos h]
    · rw [if_neg h, if_neg h]
      exact hagree r c (Finset.mem_Ico.1 hrr).1 (Finset.mem_Ico.1 hrr).2
        (Finset.mem_Ico.1 hcc).1 (Finset.mem_Ico.1 hcc).2 h
  · unfold localSize
    rw [hr, hc]

theorem foldl_hotStep_char (A : NArr) (H : ℕ)
    (hni : ∀ p ∈ hotPixelList A H, ∀ z ∈ hotPixelList A H, z ≠ p →
      z.1 < wLo p.1 ∨ wHi A.rows p.1 ≤ z.1 ∨ z.2 < wLo p.2 ∨ wHi A.cols p.2 ≤ z.2) :
    ∀ (ps : List (ℕ × ℕ)) (M : NArr),
      ps.Nodup →
      (∀ p ∈ ps, p ∈ hotPixelList A H) →
      M.rows = A.rows → M.cols = A.cols →
      (∀ z : ℕ × ℕ, (z ∈ ps ∨ z ∉ hotPixelList A H) → M.entry z.1 z.2 = A.entry z.1 z.2) →
      ∀ p ∈ ps, (ps.foldl hotStep M).entry p.1 p.2 =
        if 100 * localSum A p.1 p.2 < localSize A p.1 p.2 * A.entry p.1 p.2 then
          localSum A p.1 p.2 / (localSize A p.1 p.2 - 1)
        else A.entry p.1 p.2 := by
  intro ps
  induction ps with
  | nil =>
    intro M _ _ _ _ _ p hp
    cases hp
  | cons p ps ih =>
    intro M hnd hsub hr hc hM p' hp'
    have hpHot : p ∈ hotPixelList A H := hsub p (List.mem_cons_self _ _)
    have hagree : ∀ r c, wLo p.1 ≤ r → r < wHi A.rows p.1 → wLo p.2 ≤ c →
        c < wHi A.cols p.2 → ¬(r = p.1 ∧ c = p.2) → M.entry r c = A.entry r c := by
      intro r c h1 h2 h3 h4 hne
      by_cases hrc : (r, c) ∈ hotPixelList A H
      · have hzp : (r, c) ≠ p := by
          intro he
          exact hne ⟨congrArg Prod.fst he, congrArg Prod.snd he⟩
        rcases hni p hpHot (r, c) hrc hzp with h | h | h | h <;> omega
      · exact hM (r, c) (Or.inr hrc)
    have hMP : M.entry p.1 p.2 = A.entry p.1 p.2 := hM p (Or.inl (List.mem_cons_self _ _))
    have hls := localSum_congr M A p.1 p.2 hr hc hagree
    have hstep_p : (hotStep M p).entry p.1 p.2 =
        (if 100 * localSum A p.1 p.2 < localSize A p.1 p.2 * A.entry p.1 p.2 then
          localSum A p.1 p.2 / (localSize A p.1 p.2 - 1) else A.entry p.1 p.2) := by
      unfold hotStep
      rw [hls.1, hls.2, hMP]
      split
      · show (if p.1 = p.1 ∧ p.2 = p.2 then _ else _) = _
        rw [if_pos ⟨rfl, rfl⟩]
      · exact hMP
    have hdims := hotStep_dims M p
    have hpnotps : p ∉ ps := (List.nodup_cons.1 hnd).1
    have hM' : ∀ z : ℕ × ℕ, (z ∈ ps ∨ z ∉ hotPixelList A H) →
        (hotStep M p).entry z.1 z.2 = A.entry z.1 z.2 := by
      intro z hz
      have hzp : z ≠ p := by
        rintro rfl
        rcases hz with h | h
        · exact hpnotps h
        · exact h hpHot
      have hzp' : (z.1, z.2) ≠ p := by
        cases z
        exact hzp
      rw [hotStep_entry_ne M p z.1 z.2 hzp']
      apply hM
      rcases hz with h | h
      · exact Or.inl (List.mem_cons_of_mem _ h)
      · exact Or.inr h
    rcases List.mem_cons.1 hp' with rfl | hp'ps
    · rw [List.foldl_cons, foldl_hotStep_frame ps (hotStep M p') p' hpnotps, hstep_p]
    · rw [List.foldl_cons]
      exact ih (hotStep M p) (List.nodup_cons.1 hnd).2
        (fun q hq => hsub q (List.mem_cons_of_mem _ hq))
        (hdims.1.trans hr) (hdims.2.trans hc) hM' p' hp'ps

/-- C8 (amended): at construction the old-tree `Image.__init__` applies
`_average_out_hot` exactly once; a pixel is a candidate only when its
value is *strictly* above `H`, the trigger compares the window mean with
the pixel zeroed — denominator the *full* window size — against
value/100, and the replacement is the neighbour sum over (window size − 1)
rounded down. The window is the numpy slice `[a-1:a+2, b-1:b+2]` with
`a = 1` when `x = 0` (shifted 3×3 at a low edge) and clipped at a high
edge. Repairs happen sequentially on the mutating array; the pointwise
description below therefore assumes no hot pixel lies inside another hot
pixel's window (shapes of width 1 are excluded: there `local.size - 1 = 0`
and the source's float division is degenerate). -/
theorem average_out_hot_spec (A : NArr) (H : ℕ)
    (hrows : 2 ≤ A.rows) (hcols : 2 ≤ A.cols)
    (hni : ∀ p ∈ hotPixelList A H, ∀ z ∈ hotPixelList A H, z ≠ p →
      z.1 < wLo p.1 ∨ wHi A.rows p.1 ≤ z.1 ∨ z.2 < wLo p.2 ∨ wHi A.cols p.2 ≤ z.2) :
    imageInitArray A H = averageOutHot A H ∧
    (averageOutHot A H).rows = A.rows ∧ (averageOutHot A H).cols = A.cols ∧
    ∀ x y, x < A.rows → y < A.cols →
      (averageOutHot A H).entry x y =
        if H < A.entry x y ∧ 100 * localSum A x y < localSize A x y * A.entry x y then
          localSum A x y / (localSize A x y - 1)
        else A.entry x y := by
  refine ⟨rfl, (foldl_hotStep_dims _ _).1, (foldl_hotStep_dims _ _).2, ?_⟩
  intro x y hx hy
  by_cases hhot : (x, y) ∈ hotPixelList A H
  · have hH : H < A.entry x y := ((mem_hotPixelList A H (x, y)).1 hhot).2.2
    have hchar := foldl_hotStep_char A H hni (hotPixelList A H) A (hotPixelList_nodup A H)
      (fun p hp => hp) rfl rfl (fun z _ => rfl) (x, y) hhot
    unfold averageOutHot
    rw [hchar]
    by_cases hcond : 100 * localSum A x y < localSize A x y * A.entry x y
    · rw [if_pos hcond, if_pos ⟨hH, hcond⟩]
    · rw [if_neg hcond, if_neg (fun hc => hcond hc.2)]
  · have hH : ¬ H < A.entry x y := fun hH =>
      hhot ((mem_hotPixelList A H (x, y)).2 ⟨hx, hy, hH⟩)
    unfold averageOutHot
    rw [foldl_hotStep_frame _ _ (x, y) hhot, if_neg (fun hc => hH hc.1)]

/-- Witness for C8's amended statement: a 3×3 image with one hot pixel of
value 10000 in a neighbourhood of 1s, threshold 100; the pixel becomes
`⌊8/8⌋ = 1`. -/
theorem average_out_hot_spec_witness :
    (averageOutHot (NArr.mk 3 3 fun i j => if i = 1 ∧ j = 1 then 10000 else 1) 100).entry 1 1 =
      if 100 < (NArr.mk 3 3 fun i j => if i = 1 ∧ j = 1 then 10000 else 1).entry 1 1 ∧
          100 * localSum (NArr.mk 3 3 fun i j => if i = 1 ∧ j = 1 then 10000 else 1) 1 1 <
            localSize (NArr.mk 3 3 fun i j => if i = 1 ∧ j = 1 then 10000 else 1) 1 1 *
              (NArr.mk 3 3 fun i j => if i = 1 ∧ j = 1 then 10000 else 1).entry 1 1 then
        localSum (NArr.mk 3 3 fun i j => if i = 1 ∧ j = 1 then 10000 else 1) 1 1 /
          (localSize (NArr.mk 3 3 fun i j => if i = 1 ∧ j = 1 then 10000 else 1) 1 1 - 1)
      else (NArr.mk 3 3 fun i j => if i = 1 ∧ j = 1 then 10000 else 1).entry 1 1 :=
  (average_out_hot_spec (NArr.mk 3 3 fun i j => if i = 1 ∧ j = 1 then 10000 else 1) 100
    (by decide) (by decide) (by decide)).2.2.2 1 1 (by decide) (by decide)

/-- C8 counterexample: a 3×3 image whose centre pixel has value exactly
`H = 100` amid zeros. The claim (`value ≥ H`, neighbourhood mean excluding
the pixel `= 0 < 1 = value/100`) replaces the pixel by 0; the code's
strict `array > hot_pixel_max` never selects it, so `_average_out_hot`
leaves it at 100. -/
theorem hot_pixel_threshold_counterexample :
    (averageOutHot (NArr.mk 3 3 fun i j => if i = 1 ∧ j = 1 then 100 else 0) 100).entry 1 1 =
      100 ∧
    (hotRepairClaimed (NArr.mk 3 3 fun i j => if i = 1 ∧ j = 1 then 100 else 0) 100).entry 1 1 =
      0 := by
  constructor <;> decide
